import Mathlib

/-!
Shallow embedding of `search_copy.py` (`generate_codebase_markdown` and its
helper `create_ascii_box`).  File-system trees are modelled by the inductive
`Dir`; a file's read outcome is an `Option String` (`none` models a read that
raises, `some c` models a successful lossy-decoded read).  `os.walk` with
top-down pruning is modelled by the mutually recursive `walkDir` / `walkDirs`,
and the output document is produced as a single string by
`generate_codebase_markdown`.
-/

namespace SearchCopy

/-- Directory base names pruned from the walk (source line 18). -/
def exclude_dirs : List String :=
  [".git", "venv", "__pycache__", ".env", ".pytest_cache", "env",
   "node_modules", ".idea", "target", "build", "dist"]

/-- The declared ordered list of (language label, extension list) pairs
(source lines 21-42).  Python dict literals preserve declaration order. -/
def lang_extensions : List (String × List String) :=
  [("Python", [".py"]),
   ("Rust", [".rs"]),
   ("JavaScript", [".js", ".jsx"]),
   ("TypeScript", [".ts", ".tsx"]),
   ("Java", [".java"]),
   ("C++", [".cpp", ".hpp", ".cc", ".cxx", ".h", ".hh"]),
   ("C", [".c", ".h"]),
   ("Go", [".go"]),
   ("Ruby", [".rb"]),
   ("PHP", [".php"]),
   ("Swift", [".swift"]),
   ("Kotlin", [".kt"]),
   ("Scala", [".scala"]),
   ("HTML", [".html", ".htm"]),
   ("CSS", [".css", ".scss", ".sass"]),
   ("Shell", [".sh", ".bash"]),
   ("C#", [".cs"]),
   ("R", [".r", ".R"]),
   ("SQL", [".sql"])]

/-- Character-wise lower-casing, modelling Python `str.lower()` on the
ASCII extension strings involved here. -/
def lowerStr (s : String) : String := String.mk (s.data.map Char.toLower)

/-- Python dict assignment `d[k] = v`: if the key is present its value is
overwritten in place (the key keeps its position), otherwise the binding is
appended at the end of the insertion order. -/
def dictInsert : List (String × String) → String → String → List (String × String)
  | [], k, v => [(k, v)]
  | (k', v') :: d, k, v =>
      if k' = k then (k', v) :: d else (k', v') :: dictInsert d k v

/-- The inverted extension-to-language mapping (source lines 44-48):
`for lang, exts in lang_extensions.items(): for ext in exts:
ext_to_lang[ext.lower()] = lang`.  Later assignments overwrite earlier
ones, so an extension claimed twice resolves to the LAST declaring label. -/
def ext_to_lang : List (String × String) :=
  lang_extensions.foldl
    (fun d p => p.2.foldl (fun d e => dictInsert d (lowerStr e) p.1) d) []

/-- `os.path.splitext` on a bare file name (no path separators), on the
character list: the extension starts at the last dot, except that a name
whose characters before the last dot are all dots (e.g. `".env"`, `"..py"`)
has no extension. -/
def splitextList (cs : List Char) : List Char × List Char :=
  match cs.reverse.dropWhile (fun c => c ≠ '.') with
  | [] => (cs, [])
  | _ :: beforeRev =>
      if beforeRev.all (fun c => c == '.') then (cs, [])
      else (beforeRev.reverse,
        '.' :: (cs.reverse.takeWhile (fun c => c ≠ '.')).reverse)

/-- `_, ext = os.path.splitext(filename); ext = ext.lower()`
(source lines 58-59). -/
def extOf (name : String) : String :=
  lowerStr (String.mk (splitextList name.data).2)

/-- `os.path.basename(__file__)` (source line 64): the aggregator's own
source file name. -/
def script_basename : String := "search_copy.py"

/-- A directory entry as seen by the walk: its name, and the outcome of
attempting to read it (`none`: the `open`/`read` raises; `some c`: the
lossy-decoded text content). -/
structure FileEntry where
  name : String
  content : Option String
deriving Repr, DecidableEq

/-- One record appended to a language bucket (source line 73):
`(filename, dirpath, content)`. -/
structure FileRec where
  filename : String
  dirpath : String
  content : String
deriving Repr, DecidableEq

/-- A directory tree: the regular files directly inside, and the named
subdirectories, both in the (deterministic for a run) listing order that
`os.walk` reports. -/
inductive Dir where
  | node (files : List FileEntry) (subdirs : List (String × Dir))

/-- `files_by_lang`: a `defaultdict(list)` keyed by language label, in key
insertion order. -/
abbrev Buckets := List (String × List FileRec)

/-- `files_by_lang[lang].append(rec)`: append to the existing bucket, or
create the key (at the end of the insertion order) on first use. -/
def bucketAppend : Buckets → String → FileRec → Buckets
  | [], lang, r => [(lang, [r])]
  | (k, rs) :: bs, lang, r =>
      if k = lang then (k, rs ++ [r]) :: bs
      else (k, rs) :: bucketAppend bs lang r

/-- Read a bucket: the value at the first (hence, keys being unique, only)
occurrence of the key; absent keys read as empty (the render loop only asks
for present keys, and `defaultdict` would give `[]` anyway). -/
def bucketGet : Buckets → String → List FileRec
  | [], _ => []
  | (k, rs) :: bs, l => if k = l then rs else bucketGet bs l

/-- Dict lookup: the value at the first (hence, `dictInsert` keeping keys
unique, only) occurrence of the key, `none` when absent. -/
def lookupStr : List (String × String) → String → Option String
  | [], _ => none
  | (k, v) :: d, key => if k = key then some v else lookupStr d key

/-- `ext_to_lang` lookup for a file name: `some lang` iff the extension is
recognized (source lines 58-61, 68). -/
def classify (name : String) : Option String :=
  lookupStr ext_to_lang (extOf name)

/-- `os.path.join(dirpath, name)` for the walk's directory paths. -/
def joinPath (a b : String) : String := a ++ "/" ++ b

/-- The per-file body of the walk loop (source lines 56-76): skip
unrecognized extensions, skip the tool's own file name, skip files whose
read raises, otherwise append a record to the extension's language bucket. -/
def processFile (dirpath : String) (b : Buckets) (f : FileEntry) : Buckets :=
  match classify f.name with
  | none => b
  | some lang =>
      if f.name = script_basename then b
      else
        match f.content with
        | none => b
        | some c => bucketAppend b lang ⟨f.name, dirpath, c⟩

mutual

/-- `os.walk(root_dir)` top-down (source lines 52-76): at each directory,
process the regular files in listing order, then descend into the
non-excluded subdirectories in order.  The pruning
`dirnames[:] = [d for d in dirnames if d not in exclude_dirs]` happens
before any descent, so an excluded directory's subtree is never entered. -/
def walkDir : Dir → String → Buckets → Buckets
  | .node files subdirs, p, acc =>
      walkDirs subdirs p (files.foldl (fun b f => processFile p b f) acc)

/-- Descend into a pruned list of subdirectories, left to right. -/
def walkDirs : List (String × Dir) → String → Buckets → Buckets
  | [], _, acc => acc
  | (n, d) :: rest, p, acc =>
      if n ∈ exclude_dirs then walkDirs rest p acc
      else walkDirs rest p (walkDir d (joinPath p n) acc)

end

/-- `(filename, dirpath, content)` for a file the walk would record:
`some` iff the extension is recognized, the name is not the tool's own,
and the read succeeds. -/
def toRecord (dirpath : String) (f : FileEntry) : Option FileRec :=
  match classify f.name with
  | none => none
  | some _ =>
      if f.name = script_basename then none
      else f.content.map (fun c => ⟨f.name, dirpath, c⟩)

mutual

/-- The flat list, in walk order, of the records the walk appends under a
directory: the specification-side description of which files are eligible
for the report. -/
def eligibleDir : Dir → String → List FileRec
  | .node files subdirs, p =>
      files.filterMap (toRecord p) ++ eligibleDirs subdirs p

/-- `eligibleDir` over a subdirectory list, honouring the pruning. -/
def eligibleDirs : List (String × Dir) → String → List FileRec
  | [], _ => []
  | (n, d) :: rest, p =>
      if n ∈ exclude_dirs then eligibleDirs rest p
      else eligibleDir d (joinPath p n) ++ eligibleDirs rest p

end

/-- Total characters of a language's aggregated contents
(source lines 78-82). -/
def volumeOf (b : Buckets) (l : String) : Nat :=
  ((bucketGet b l).map (fun r => r.content.length)).sum

/-- Stable descending insertion: `x` is placed before the first element
whose key is ≤ its own, so among equal keys earlier input elements stay
first.  This is the characterisation of Python's stable
`sorted(..., reverse=True)`. -/
def insertDesc (key : String → Nat) (x : String) : List String → List String
  | [] => [x]
  | y :: ys => if key y ≤ key x then x :: y :: ys else y :: insertDesc key x ys

/-- Stable descending sort by `key`, modelling
`sorted(keys, key=lambda l: lang_volumes[l], reverse=True)`
(source line 85). -/
def sortDesc (key : String → Nat) : List String → List String
  | [] => []
  | x :: xs => insertDesc key x (sortDesc key xs)

/-- `sorted_langs` for a bucket mapping: its keys in insertion order,
stably sorted by descending volume. -/
def sortedLangsOf (b : Buckets) : List String :=
  sortDesc (volumeOf b) (b.map Prod.fst)

/-- Python `c * n` for a character and an `int`: the empty string when
`n ≤ 0`. -/
def charRep (c : Char) (n : Int) : String :=
  String.mk (List.replicate n.toNat c)

/-- Character-wise upper-casing, modelling `str.upper()` on the label
strings involved here. -/
def upperStr (s : String) : String := String.mk (s.data.map Char.toUpper)

/-- `create_ascii_box` (source lines 88-104): a three-line framed box of
total line width `width`, the upper-cased text centred in the middle line.
Python integer arithmetic (`//` is floor division, string repetition
clamps negative counts to empty) is modelled over `Int`. -/
def create_ascii_box (text : String) (width : Int) (double_line : Bool) : String :=
  let tc : Char := if double_line then '╔' else '┌'
  let bc : Char := if double_line then '╚' else '└'
  let hz : Char := if double_line then '═' else '─'
  let vt : Char := if double_line then '║' else '│'
  let tr : Char := if double_line then '╗' else '┐'
  let br : Char := if double_line then '╝' else '┘'
  let up := upperStr text
  let padding : Int := width - (up.length : Int) - 2
  let left_pad : Int := Int.fdiv padding 2
  let right_pad : Int := padding - left_pad
  let top := String.singleton tc ++ charRep hz (width - 2) ++ String.singleton tr ++ "\n"
  let middle := String.singleton vt ++ charRep ' ' left_pad ++ up
    ++ charRep ' ' right_pad ++ String.singleton vt ++ "\n"
  let bottom := String.singleton bc ++ charRep hz (width - 2) ++ String.singleton br ++ "\n"
  top ++ middle ++ bottom

/-- Sequentially concatenated rendering of a list, modelling a Python
`for` loop of `outfile.write(...)` calls. -/
def strCatMap (f : α → String) : List α → String
  | [] => ""
  | x :: xs => f x ++ strCatMap f xs

/-- The writes for one file record (source lines 122-129): name, directory,
fenced content block tagged with the lower-cased label, dashed separator. -/
def renderFile (lang : String) (r : FileRec) : String :=
  r.filename ++ "\n" ++ r.dirpath ++ "\n"
    ++ "```" ++ lowerStr lang ++ "\n" ++ r.content ++ "\n```\n\n"
    ++ String.mk (List.replicate 80 '-') ++ "\n\n"

/-- The writes for one language section (source lines 118-132): the
double-line banner, every record of the bucket in discovery order, then the
blank spacing. -/
def renderSection (b : Buckets) (lang : String) : String :=
  create_ascii_box lang 40 true
    ++ strCatMap (renderFile lang) (bucketGet b lang) ++ "\n\n"

/-- The document prefix (source lines 109-116): overview box, heading,
double-line separator. -/
def renderHeader (project_name : String) : String :=
  create_ascii_box ("Project Codebase Overview") 40 false
    ++ "# " ++ project_name ++ " Codebase Manifest\n\n"
    ++ String.mk (List.replicate 40 '═') ++ "\n\n"

/-- The buckets a run over `root` rooted at path `p` collects. -/
def bucketsOf (t : Dir) (p : String) : Buckets := walkDir t p []

/-- The ordered language list of a run. -/
def sortedLangsFor (t : Dir) (p : String) : List String :=
  sortedLangsOf (bucketsOf t p)

/-- The language sections of a run's output document, in render order:
the label and its bucket, exactly as the render loop iterates them. -/
def sectionsOf (t : Dir) (p : String) : List (String × List FileRec) :=
  (sortedLangsFor t p).map (fun l => (l, bucketGet (bucketsOf t p) l))

/-- `generate_codebase_markdown` (source lines 4-134) as a function of the
root path, its display name, and the directory tree: the full text written
to `<project_name>.codebase.md`.  The source resolves `root_dir` and
`project_name` from its own installed location; they are parameters here. -/
def generate_codebase_markdown (project_name : String) (root_path : String)
    (root : Dir) : String :=
  let buckets := bucketsOf root root_path
  renderHeader project_name
    ++ strCatMap (renderSection buckets) (sortedLangsOf buckets)

/-! ### Helper lemmas about buckets and the walk -/

/-- Boolean test: does record `r` classify to language `l`? -/
def isLang (l : String) (r : FileRec) : Bool :=
  classify r.filename == some l

theorem bucketGet_nil (l : String) : bucketGet [] l = [] := rfl

theorem bucketGet_bucketAppend (b : Buckets) (lang l : String) (r : FileRec) :
    bucketGet (bucketAppend b lang r) l
      = bucketGet b l ++ (if lang = l then [r] else []) := by
  induction b with
  | nil =>
      by_cases h : lang = l <;> simp [bucketAppend, bucketGet, h]
  | cons kv bs ih =>
      obtain ⟨k, rs⟩ := kv
      by_cases hk : k = lang
      · subst hk
        by_cases hl : k = l <;> simp [bucketAppend, bucketGet, hl]
      · by_cases hl : k = l
        · subst hl
          have : ¬ lang = k := fun h => hk h.symm
          simp [bucketAppend, bucketGet, hk, this]
        · simp [bucketAppend, bucketGet, hk, hl, ih]

theorem mem_keys_bucketAppend {m : String} (b : Buckets) (lang : String) (r : FileRec) :
    m ∈ (bucketAppend b lang r).map Prod.fst ↔ m ∈ b.map Prod.fst ∨ m = lang := by
  induction b with
  | nil => simp [bucketAppend]
  | cons kv bs ih =>
      obtain ⟨k, rs⟩ := kv
      by_cases hk : k = lang
      · subst hk
        simp [bucketAppend]
        tauto
      · simp [bucketAppend, hk, ih]
        tauto

theorem nodup_keys_bucketAppend {b : Buckets} (lang : String) (r : FileRec)
    (h : (b.map Prod.fst).Nodup) :
    ((bucketAppend b lang r).map Prod.fst).Nodup := by
  induction b with
  | nil => simp [bucketAppend]
  | cons kv bs ih =>
      obtain ⟨k, rs⟩ := kv
      simp only [List.map_cons, List.nodup_cons] at h
      by_cases hk : k = lang
      · subst hk
        simpa [bucketAppend] using h
      · simp only [bucketAppend, if_neg hk, List.map_cons, List.nodup_cons]
        refine ⟨fun hm => ?_, ih h.2⟩
        rcases (mem_keys_bucketAppend bs lang r).mp hm with h1 | h2
        · exact h.1 h1
        · exact hk h2

theorem processFile_bucketGet (p : String) (b : Buckets) (f : FileEntry) (l : String) :
    bucketGet (processFile p b f) l
      = bucketGet b l ++ ((toRecord p f).toList.filter (isLang l)) := by
  unfold processFile toRecord
  cases hc : classify f.name with
  | none => simp
  | some lang =>
      by_cases hs : f.name = script_basename
      · simp [hs]
      · cases hco : f.content with
        | none => simp [hs]
        | some c =>
            simp only [hs, if_false, Option.map_some, Option.toList_some]
            rw [bucketGet_bucketAppend]
            by_cases hl : lang = l
            · subst hl
              simp [List.filter_cons, isLang, hc]
            · simp [List.filter_cons, isLang, hc, hl]

theorem processFile_keys_nodup (p : String) {b : Buckets} (f : FileEntry)
    (h : (b.map Prod.fst).Nodup) :
    ((processFile p b f).map Prod.fst).Nodup := by
  unfold processFile
  cases classify f.name with
  | none => exact h
  | some lang =>
      by_cases hs : f.name = script_basename
      · simpa [hs] using h
      · cases f.content with
        | none => simpa [hs] using h
        | some c => simpa [hs] using nodup_keys_bucketAppend lang _ h

theorem foldl_processFile_bucketGet (p : String) (files : List FileEntry)
    (acc : Buckets) (l : String) :
    bucketGet (files.foldl (fun b f => processFile p b f) acc) l
      = bucketGet acc l ++ (files.filterMap (toRecord p)).filter (isLang l) := by
  induction files generalizing acc with
  | nil => simp
  | cons f fs ih =>
      simp only [List.foldl_cons]
      rw [ih, processFile_bucketGet, List.append_assoc]
      congr 1
      rw [List.filterMap_cons]
      cases toRecord p f with
      | none => simp
      | some r =>
          cases hb : isLang l r <;> simp [List.filter_cons, hb]

theorem foldl_processFile_keys_nodup (p : String) (files : List FileEntry)
    {acc : Buckets} (h : (acc.map Prod.fst).Nodup) :
    (((files.foldl (fun b f => processFile p b f) acc)).map Prod.fst).Nodup := by
  induction files generalizing acc with
  | nil => exact h
  | cons f fs ih => exact ih (processFile_keys_nodup p f h)

mutual

theorem walkDir_bucketGet (d : Dir) (p : String) (acc : Buckets) (l : String) :
    bucketGet (walkDir d p acc) l
      = bucketGet acc l ++ (eligibleDir d p).filter (isLang l) := by
  match d with
  | .node files subdirs =>
      rw [walkDir, eligibleDir, walkDirs_bucketGet subdirs p _ l,
        foldl_processFile_bucketGet, List.filter_append, List.append_assoc]

theorem walkDirs_bucketGet (ds : List (String × Dir)) (p : String) (acc : Buckets)
    (l : String) :
    bucketGet (walkDirs ds p acc) l
      = bucketGet acc l ++ (eligibleDirs ds p).filter (isLang l) := by
  match ds with
  | [] => simp [walkDirs, eligibleDirs]
  | (n, d) :: rest =>
      rw [walkDirs, eligibleDirs]
      by_cases h : n ∈ exclude_dirs
      · rw [if_pos h, if_pos h, walkDirs_bucketGet rest p acc l]
      · rw [if_neg h, if_neg h, walkDirs_bucketGet rest p _ l,
          walkDir_bucketGet d (joinPath p n) acc l, List.filter_append,
          List.append_assoc]

end

mutual

theorem walkDir_keys_nodup (d : Dir) (p : String) (acc : Buckets)
    (h : (acc.map Prod.fst).Nodup) :
    ((walkDir d p acc).map Prod.fst).Nodup := by
  match d with
  | .node files subdirs =>
      rw [walkDir]
      exact walkDirs_keys_nodup subdirs p _ (foldl_processFile_keys_nodup p files h)

theorem walkDirs_keys_nodup (ds : List (String × Dir)) (p : String) (acc : Buckets)
    (h : (acc.map Prod.fst).Nodup) :
    ((walkDirs ds p acc).map Prod.fst).Nodup := by
  match ds with
  | [] => simpa [walkDirs] using h
  | (n, d) :: rest =>
      rw [walkDirs]
      by_cases hn : n ∈ exclude_dirs
      · rw [if_pos hn]
        exact walkDirs_keys_nodup rest p acc h
      · rw [if_neg hn]
        exact walkDirs_keys_nodup rest p _ (walkDir_keys_nodup d (joinPath p n) acc h)

end

/-- The bucket of language `l` after a run is exactly the walk-ordered list
of eligible records classifying to `l`. -/
theorem bucketsOf_bucketGet (t : Dir) (p : String) (l : String) :
    bucketGet (bucketsOf t p) l = (eligibleDir t p).filter (isLang l) := by
  rw [bucketsOf, walkDir_bucketGet, bucketGet_nil, List.nil_append]

theorem bucketsOf_keys_nodup (t : Dir) (p : String) :
    ((bucketsOf t p).map Prod.fst).Nodup :=
  walkDir_keys_nodup t p [] (by simp)

theorem bucketGet_ne_nil_mem_keys {b : Buckets} {l : String}
    (h : bucketGet b l ≠ []) : l ∈ b.map Prod.fst := by
  induction b with
  | nil => simp [bucketGet] at h
  | cons kv bs ih =>
      obtain ⟨k, rs⟩ := kv
      by_cases hk : k = l
      · simp [hk]
      · simp only [bucketGet, if_neg hk] at h
        simp [ih h]

/-! ### The stable descending sort -/

theorem insertDesc_perm (key : String → Nat) (x : String) (l : List String) :
    (insertDesc key x l).Perm (x :: l) := by
  induction l with
  | nil => simp [insertDesc]
  | cons y ys ih =>
      by_cases h : key y ≤ key x
      · simp [insertDesc, h]
      · simp only [insertDesc, if_neg h]
        exact (ih.cons y).trans (List.Perm.swap x y ys)

theorem sortDesc_perm (key : String → Nat) (l : List String) :
    (sortDesc key l).Perm l := by
  induction l with
  | nil => simp [sortDesc]
  | cons x xs ih =>
      exact (insertDesc_perm key x (sortDesc key xs)).trans (ih.cons x)

theorem pairwise_insertDesc {key : String → Nat} {x : String} {l : List String}
    (h : l.Pairwise (fun a b => key b ≤ key a)) :
    (insertDesc key x l).Pairwise (fun a b => key b ≤ key a) := by
  induction l with
  | nil => simp [insertDesc]
  | cons y ys ih =>
      rcases List.pairwise_cons.mp h with ⟨hy, hys⟩
      by_cases hc : key y ≤ key x
      · rw [insertDesc, if_pos hc]
        refine List.pairwise_cons.mpr ⟨?_, h⟩
        intro b hb
        rcases List.mem_cons.mp hb with hb | hb
        · exact hb ▸ hc
        · exact le_trans (hy b hb) hc
      · rw [insertDesc, if_neg hc]
        refine List.pairwise_cons.mpr ⟨?_, ih hys⟩
        intro b hb
        rcases List.mem_cons.mp ((insertDesc_perm key x ys).mem_iff.mp hb) with hb | hb
        · exact hb ▸ le_of_not_le hc
        · exact hy b hb

theorem sortDesc_pairwise (key : String → Nat) (l : List String) :
    (sortDesc key l).Pairwise (fun a b => key b ≤ key a) := by
  induction l with
  | nil => simp [sortDesc]
  | cons x xs ih => exact pairwise_insertDesc ih

theorem filter_insertDesc (key : String → Nat) (v : Nat) (x : String) (l : List String) :
    (insertDesc key x l).filter (fun a => key a == v)
      = if key x = v then x :: l.filter (fun a => key a == v)
        else l.filter (fun a => key a == v) := by
  induction l with
  | nil =>
      by_cases hx : key x = v <;> simp [insertDesc, List.filter_cons, hx]
  | cons y ys ih =>
      by_cases hc : key y ≤ key x
      · rw [insertDesc, if_pos hc]
        by_cases hx : key x = v <;> simp [List.filter_cons, hx]
      · rw [insertDesc, if_neg hc]
        by_cases hx : key x = v
        · have hy : ¬ key y = v := by
            intro hv
            exact hc (le_of_eq (hv.trans hx.symm))
          simp [List.filter_cons, hx, hy, ih]
        · simp [List.filter_cons, hx, ih]

theorem sortDesc_filter (key : String → Nat) (v : Nat) (l : List String) :
    (sortDesc key l).filter (fun a => key a == v)
      = l.filter (fun a => key a == v) := by
  induction l with
  | nil => simp [sortDesc]
  | cons x xs ih =>
      rw [sortDesc, filter_insertDesc, List.filter_cons]
      by_cases hx : key x = v <;> simp [hx, ih]

/-! ### Counting helpers -/

theorem count_filter_eq (r : FileRec) (p : FileRec → Bool) (l : List FileRec) :
    List.count r (l.filter p) = if p r then List.count r l else 0 := by
  cases hp : p r with
  | true => simp [List.count_filter hp]
  | false =>
      simp only [if_neg, Bool.false_eq_true, if_false]
      refine List.count_eq_zero.mpr (fun hm => ?_)
      rw [List.mem_filter, hp] at hm
      exact Bool.false_ne_true hm.2

/-! ### Eligible records only carry recognized, non-self file names -/

mutual

theorem eligibleDir_mem {r : FileRec} (d : Dir) (p : String)
    (h : r ∈ eligibleDir d p) :
    (classify r.filename).isSome ∧ r.filename ≠ script_basename := by
  match d with
  | .node files subdirs =>
      rw [eligibleDir] at h
      rcases List.mem_append.mp h with h | h
      · rcases List.mem_filterMap.mp h with ⟨f, _, hf⟩
        unfold toRecord at hf
        cases hc : classify f.name with
        | none => rw [hc] at hf; exact absurd hf (by simp)
        | some lang =>
            rw [hc] at hf
            by_cases hs : f.name = script_basename
            · rw [if_pos hs] at hf
              exact absurd hf (by simp)
            · rw [if_neg hs] at hf
              cases hco : f.content with
              | none => rw [hco] at hf; exact absurd hf (by simp)
              | some c =>
                  rw [hco] at hf
                  have hr : FileRec.mk f.name p c = r := by simpa using hf
                  subst hr
                  exact ⟨by simp [hc], hs⟩
      · exact eligibleDirs_mem subdirs p h

theorem eligibleDirs_mem {r : FileRec} (ds : List (String × Dir)) (p : String)
    (h : r ∈ eligibleDirs ds p) :
    (classify r.filename).isSome ∧ r.filename ≠ script_basename := by
  match ds with
  | [] => rw [eligibleDirs] at h; exact absurd h (by simp)
  | (n, d) :: rest =>
      rw [eligibleDirs] at h
      by_cases hn : n ∈ exclude_dirs
      · rw [if_pos hn] at h
        exact eligibleDirs_mem rest p h
      · rw [if_neg hn] at h
        rcases List.mem_append.mp h with h | h
        · exact eligibleDir_mem d (joinPath p n) h
        · exact eligibleDirs_mem rest p h

end

theorem flatMap_map_snd (SL : List String) (g : String → List FileRec) :
    ((SL.map (fun l => (l, g l))).flatMap Prod.snd) = SL.flatMap g := by
  induction SL with
  | nil => simp
  | cons l SL' ih => simp [ih]

theorem count_flatMap_buckets {r : FileRec} {l₀ : String}
    (hc : classify r.filename = some l₀) (E : List FileRec) (SL : List String) :
    List.count r (SL.flatMap (fun l => E.filter (isLang l)))
      = SL.count l₀ * List.count r E := by
  induction SL with
  | nil => simp
  | cons l SL' ih =>
      rw [List.flatMap_cons, List.count_append, ih, count_filter_eq,
        List.count_cons]
      by_cases hl : l = l₀
      · subst hl
        simp only [isLang, hc, beq_self_eq_true, if_pos]
        ring
      · have hl' : ¬ l₀ = l := fun hh => hl hh.symm
        simp [isLang, hc, hl, hl']

theorem countP_sections {r : FileRec} {l₀ : String}
    (hc : classify r.filename = some l₀) {E : List FileRec} (hrE : r ∈ E)
    (SL : List String) :
    List.countP (fun l => decide (r ∈ E.filter (isLang l))) SL = SL.count l₀ := by
  induction SL with
  | nil => simp
  | cons l SL' ih =>
      rw [List.countP_cons, List.count_cons, ih]
      congr 1
      by_cases hl : l = l₀
      · subst hl
        simp [List.mem_filter, hrE, isLang, hc]
      · have hl' : ¬ l₀ = l := fun hh => hl hh.symm
        simp [List.mem_filter, isLang, hc, hl, hl']

/-- C1: For every run, every file under the root whose extension is
recognized, which is not under an excluded directory, is not the tool's own
source file, and is successfully read (i.e. every record of the walk's
eligible-file list, which occurs there once), appears in exactly one
language section of the output document, exactly once. -/
theorem c1_eligible_file_in_exactly_one_section (t : Dir) (p : String)
    (r : FileRec) (h : List.count r (eligibleDir t p) = 1) :
    List.countP (fun s => decide (r ∈ s.2)) (sectionsOf t p) = 1 ∧
    List.count r ((sectionsOf t p).flatMap Prod.snd) = 1 := by
  have hrE : r ∈ eligibleDir t p := by
    have : 0 < List.count r (eligibleDir t p) := by omega
    exact List.count_pos_iff.mp this
  obtain ⟨l₀, hc⟩ := Option.isSome_iff_exists.mp (eligibleDir_mem t p hrE).1
  have hrB : r ∈ bucketGet (bucketsOf t p) l₀ := by
    rw [bucketsOf_bucketGet]
    exact List.mem_filter.mpr ⟨hrE, by simp [isLang, hc]⟩
  have hl₀keys : l₀ ∈ (bucketsOf t p).map Prod.fst :=
    bucketGet_ne_nil_mem_keys (List.ne_nil_of_mem hrB)
  have hl₀SL : List.count l₀ (sortedLangsFor t p) = 1 := by
    rw [sortedLangsFor, sortedLangsOf,
      (sortDesc_perm (volumeOf (bucketsOf t p)) _).count_eq l₀]
    exact List.count_eq_one_of_mem (bucketsOf_keys_nodup t p) hl₀keys
  constructor
  · rw [sectionsOf, List.countP_map]
    have : ((fun s : String × List FileRec => decide (r ∈ s.2)) ∘
        fun l => (l, bucketGet (bucketsOf t p) l))
        = fun l => decide (r ∈ (eligibleDir t p).filter (isLang l)) := by
      funext l
      simp [Function.comp, bucketsOf_bucketGet]
    rw [this, countP_sections hc hrE]
    exact hl₀SL
  · rw [sectionsOf, flatMap_map_snd]
    have hfun : bucketGet (bucketsOf t p)
        = fun l => (eligibleDir t p).filter (isLang l) :=
      funext (bucketsOf_bucketGet t p)
    rw [hfun, count_flatMap_buckets hc, hl₀SL, h, Nat.one_mul]

/-- Witness for C1 at a concrete one-file tree. -/
theorem c1_witness :
    List.count (FileRec.mk ("main.py") ("/r") ("print(1)"))
        (eligibleDir (Dir.node [⟨"main.py", some ("print(1)")⟩] []) "/r") = 1 ∧
    List.countP
        (fun s => decide (FileRec.mk ("main.py") ("/r") ("print(1)") ∈ s.2))
        (sectionsOf (Dir.node [⟨"main.py", some ("print(1)")⟩] []) "/r") = 1 ∧
    List.count (FileRec.mk ("main.py") ("/r") ("print(1)"))
        ((sectionsOf (Dir.node [⟨"main.py", some ("print(1)")⟩] []) "/r").flatMap
          Prod.snd) = 1 := by
  have h := c1_eligible_file_in_exactly_one_section
    (Dir.node [⟨"main.py", some ("print(1)")⟩] []) "/r"
    (FileRec.mk ("main.py") ("/r") ("print(1)")) (by decide)
  exact ⟨by decide, h.1, h.2⟩

/-- C2 counterexample: The claim says an extension claimed by two
labels resolves to the FIRST-declared label, so that `".h"` maps to the
C++ label.  In the code, `ext_to_lang[ext.lower()] = lang` overwrites an
existing key, so the LAST declaration wins: `".h"` maps to `"C"`. -/
theorem c2_counterexample : lookupStr ext_to_lang (".h") ≠ some ("C++") := by
  decide

/-- C2 amended: When building the extension-to-label lookup from the
declared ordered list of (label, extension-set) pairs, an extension claimed
by two labels resolves to the LAST-declared label (last writer wins, since
dict assignment overwrites); in particular `".h"`, declared by both C++ and
C with C++ first, maps to the C label. -/
theorem c2_last_writer_wins :
    (∀ (d : List (String × String)) (k v : String),
       lookupStr (dictInsert d k v) k = some v) ∧
    lookupStr ext_to_lang (".h") = some ("C") := by
  constructor
  · intro d k v
    induction d with
    | nil => simp [dictInsert, lookupStr]
    | cons kv d ih =>
        obtain ⟨k', v'⟩ := kv
        by_cases h : k' = k
        · subst h
          simp [dictInsert, lookupStr]
        · simp [dictInsert, lookupStr, h, ih]
  · decide

/-- C3: The contents of a directory whose base name is in the excluded
set never influence the walk (at any nesting position in a subdirectory
list) nor the final output document: pruning happens before descent, so the
subtree below an excluded name can be replaced by anything without changing
either the collected buckets or the rendered document. -/
theorem c3_excluded_dir_never_descended (nm : String) (h : nm ∈ exclude_dirs) :
    (∀ (pre rest : List (String × Dir)) (d d' : Dir) (p : String) (acc : Buckets),
       walkDirs (pre ++ (nm, d) :: rest) p acc
         = walkDirs (pre ++ (nm, d') :: rest) p acc) ∧
    (∀ (pn p : String) (files : List FileEntry) (pre rest : List (String × Dir))
       (d d' : Dir),
       generate_codebase_markdown pn p (Dir.node files (pre ++ (nm, d) :: rest))
         = generate_codebase_markdown pn p (Dir.node files (pre ++ (nm, d') :: rest))) := by
  have h1 : ∀ (pre rest : List (String × Dir)) (d d' : Dir) (p : String)
      (acc : Buckets),
      walkDirs (pre ++ (nm, d) :: rest) p acc
        = walkDirs (pre ++ (nm, d') :: rest) p acc := by
    intro pre
    induction pre with
    | nil =>
        intro rest d d' p acc
        rw [List.nil_append, List.nil_append, walkDirs, walkDirs,
          if_pos h, if_pos h]
    | cons nd pre ih =>
        intro rest d d' p acc
        obtain ⟨n₁, d₁⟩ := nd
        rw [List.cons_append, List.cons_append, walkDirs, walkDirs]
        by_cases hn : n₁ ∈ exclude_dirs
        · rw [if_pos hn, if_pos hn, ih]
        · rw [if_neg hn, if_neg hn, ih]
  refine ⟨h1, fun pn p files pre rest d d' => ?_⟩
  have hb : bucketsOf (Dir.node files (pre ++ (nm, d) :: rest)) p
      = bucketsOf (Dir.node files (pre ++ (nm, d') :: rest)) p := by
    rw [bucketsOf, bucketsOf, walkDir, walkDir, h1]
  simp only [generate_codebase_markdown, hb]

/-- Witness for C3 at the excluded name `".git"` and a concrete subtree. -/
theorem c3_witness :
    (".git" ∈ exclude_dirs) ∧
    walkDirs [(".git", Dir.node [⟨"hidden.py", some ("x")⟩] [])] "/r" []
      = walkDirs [(".git", Dir.node [] [])] "/r" [] ∧
    generate_codebase_markdown ("proj") ("/r")
        (Dir.node [] [(".git", Dir.node [⟨"hidden.py", some ("x")⟩] [])])
      = generate_codebase_markdown ("proj") ("/r")
        (Dir.node [] [(".git", Dir.node [] [])]) := by
  have hmem : (".git" : String) ∈ exclude_dirs := by decide
  refine ⟨hmem, ?_, ?_⟩
  · exact (c3_excluded_dir_never_descended (".git") hmem).1
      [] [] (Dir.node [⟨"hidden.py", some ("x")⟩] []) (Dir.node [] []) "/r" []
  · exact (c3_excluded_dir_never_descended (".git") hmem).2
      ("proj") ("/r") [] [] [] (Dir.node [⟨"hidden.py", some ("x")⟩] []) (Dir.node [] [])

/-- C6: A file whose read fails is skipped silently: processing it
leaves the buckets untouched, removing it from a directory's file list
changes neither the walk result nor the output document, and in particular
the walk continues over the files around it (the run never aborts — the
walk and render are total functions here). -/
theorem c6_read_failure_skipped_silently :
    (∀ (p : String) (b : Buckets) (nm : String), processFile p b ⟨nm, none⟩ = b) ∧
    (∀ (p : String) (acc : Buckets) (nm : String) (fs1 fs2 : List FileEntry)
       (subdirs : List (String × Dir)),
       walkDir (Dir.node (fs1 ++ ⟨nm, none⟩ :: fs2) subdirs) p acc
         = walkDir (Dir.node (fs1 ++ fs2) subdirs) p acc) ∧
    (∀ (pn p nm : String) (fs1 fs2 : List FileEntry)
       (subdirs : List (String × Dir)),
       generate_codebase_markdown pn p (Dir.node (fs1 ++ ⟨nm, none⟩ :: fs2) subdirs)
         = generate_codebase_markdown pn p (Dir.node (fs1 ++ fs2) subdirs)) := by
  have h1 : ∀ (p : String) (b : Buckets) (nm : String),
      processFile p b ⟨nm, none⟩ = b := by
    intro p b nm
    unfold processFile
    cases classify nm with
    | none => rfl
    | some lang =>
        by_cases hs : nm = script_basename <;> simp [hs]
  have h2 : ∀ (p : String) (acc : Buckets) (nm : String)
      (fs1 fs2 : List FileEntry) (subdirs : List (String × Dir)),
      walkDir (Dir.node (fs1 ++ ⟨nm, none⟩ :: fs2) subdirs) p acc
        = walkDir (Dir.node (fs1 ++ fs2) subdirs) p acc := by
    intro p acc nm fs1 fs2 subdirs
    rw [walkDir, walkDir, List.foldl_append, List.foldl_append, List.foldl_cons,
      h1]
  exact ⟨h1, h2, fun pn p nm fs1 fs2 subdirs => by
    simp only [generate_codebase_markdown, bucketsOf, h2]⟩

/-! ### The output artifact's name is never recognized -/

theorem takeWhile_append_of_all {p : Char → Bool} {l1 : List Char}
    (l2 : List Char) (h : ∀ a ∈ l1, p a = true) :
    (l1 ++ l2).takeWhile p = l1 ++ l2.takeWhile p := by
  induction l1 with
  | nil => simp
  | cons a l1 ih =>
      rw [List.cons_append, List.takeWhile_cons,
        if_pos (h a (List.mem_cons_self a l1)),
        ih fun b hb => h b (List.mem_cons_of_mem a hb), List.cons_append]

theorem dropWhile_append_of_all {p : Char → Bool} {l1 : List Char}
    (l2 : List Char) (h : ∀ a ∈ l1, p a = true) :
    (l1 ++ l2).dropWhile p = l2.dropWhile p := by
  induction l1 with
  | nil => simp
  | cons a l1 ih =>
      rw [List.cons_append, List.dropWhile_cons,
        if_pos (h a (List.mem_cons_self a l1)), ih fun b hb => h b (List.mem_cons_of_mem a hb)]

/-- `os.path.splitext` splits at the last dot whenever no dot occurs after
it and some non-dot character precedes it. -/
theorem splitextList_spec (before after : List Char) (h1 : '.' ∉ after)
    (h2 : ∃ c ∈ before, c ≠ '.') :
    splitextList (before ++ '.' :: after) = (before, '.' :: after) := by
  have hall : ∀ a ∈ after.reverse, (decide (a ≠ '.')) = true := by
    intro a ha
    simp only [ne_eq, decide_eq_true_eq]
    intro hdot
    exact h1 (hdot ▸ List.mem_reverse.mp ha)
  have hrev : (before ++ '.' :: after).reverse
      = after.reverse ++ '.' :: before.reverse := by
    rw [List.reverse_append, List.reverse_cons, List.append_assoc,
      List.singleton_append]
  have hdrop : (before ++ '.' :: after).reverse.dropWhile
        (fun c => decide (c ≠ '.')) = '.' :: before.reverse := by
    rw [hrev, dropWhile_append_of_all _ hall, List.dropWhile_cons,
      if_neg (by simp)]
  have htake : (before ++ '.' :: after).reverse.takeWhile
        (fun c => decide (c ≠ '.')) = after.reverse := by
    rw [hrev, takeWhile_append_of_all _ hall, List.takeWhile_cons,
      if_neg (by simp), List.append_nil]
  have hfalse : before.reverse.all (fun c => c == '.') = false := by
    obtain ⟨c, hc, hne⟩ := h2
    rcases Bool.eq_false_or_eq_true (before.reverse.all (fun c => c == '.'))
      with hf | ht
    · exfalso
      have := List.all_eq_true.mp hf c (List.mem_reverse.mpr hc)
      exact hne (by simpa using this)
    · exact ht
  unfold splitextList
  rw [hdrop, htake]
  dsimp only
  rw [if_neg (by simp [hfalse])]
  simp

/-- The previous run's output artifact `<project_name>.codebase.md` has
extension `".md"`, which is not in the registry, so it is never
classified. -/
theorem classify_output_artifact (pn : String) :
    classify (pn ++ ".codebase.md") = none := by
  have hdata : (pn ++ ".codebase.md").data
      = (pn.data ++ ['.', 'c', 'o', 'd', 'e', 'b', 'a', 's', 'e'])
        ++ '.' :: ['m', 'd'] := by
    rw [String.data_append]
    have : (".codebase.md" : String).data
        = ['.', 'c', 'o', 'd', 'e', 'b', 'a', 's', 'e', '.', 'm', 'd'] := rfl
    rw [this]
    simp
  have hsplit : (splitextList (pn ++ ".codebase.md").data).2 = ['.', 'm', 'd'] := by
    rw [hdata, splitextList_spec _ _ (by decide)
      ⟨'c', by simp, by decide⟩]
  rw [classify, extOf, hsplit]
  decide

/-- C7: Idempotence: the run is a pure function of the tree, and the
output file left by a previous run (named `<project_name>.codebase.md`,
whatever its content, wherever it sits in the root's file listing) is never
re-ingested: the second run's document is identical to the first's. -/
theorem c7_second_run_identical (pn p : String) (c : Option String)
    (fs1 fs2 : List FileEntry) (subdirs : List (String × Dir)) :
    generate_codebase_markdown pn p
        (Dir.node (fs1 ++ ⟨pn ++ ".codebase.md", c⟩ :: fs2) subdirs)
      = generate_codebase_markdown pn p (Dir.node (fs1 ++ fs2) subdirs) := by
  have hpf : ∀ b : Buckets, processFile p b ⟨pn ++ ".codebase.md", c⟩ = b := by
    intro b
    unfold processFile
    rw [classify_output_artifact]
  have h2 : walkDir (Dir.node (fs1 ++ ⟨pn ++ ".codebase.md", c⟩ :: fs2) subdirs) p []
      = walkDir (Dir.node (fs1 ++ fs2) subdirs) p [] := by
    rw [walkDir, walkDir, List.foldl_append, List.foldl_append, List.foldl_cons,
      hpf]
  simp only [generate_codebase_markdown, bucketsOf, h2]

/-- C8: A file named exactly like the aggregator's own source file is
always skipped: no bucket of any run contains a record with that file name,
and inserting such a file anywhere in a directory listing leaves the output
document unchanged. -/
theorem c8_self_exclusion :
    (∀ (t : Dir) (p l : String) (r : FileRec),
       r ∈ bucketGet (bucketsOf t p) l → r.filename ≠ script_basename) ∧
    (∀ (pn p : String) (c : Option String) (fs1 fs2 : List FileEntry)
       (subdirs : List (String × Dir)),
       generate_codebase_markdown pn p
           (Dir.node (fs1 ++ ⟨script_basename, c⟩ :: fs2) subdirs)
         = generate_codebase_markdown pn p (Dir.node (fs1 ++ fs2) subdirs)) := by
  constructor
  · intro t p l r hr
    rw [bucketsOf_bucketGet] at hr
    exact (eligibleDir_mem t p (List.mem_filter.mp hr).1).2
  · intro pn p c fs1 fs2 subdirs
    have hpf : ∀ b : Buckets, processFile p b ⟨script_basename, c⟩ = b := by
      intro b
      unfold processFile
      cases classify script_basename with
      | none => rfl
      | some lang => simp
    have h2 : walkDir (Dir.node (fs1 ++ ⟨script_basename, c⟩ :: fs2) subdirs) p []
        = walkDir (Dir.node (fs1 ++ fs2) subdirs) p [] := by
      rw [walkDir, walkDir, List.foldl_append, List.foldl_append,
        List.foldl_cons, hpf]
    simp only [generate_codebase_markdown, bucketsOf, h2]

/-- Witness for C8's first conjunct at a concrete tree. -/
theorem c8_witness :
    (⟨"main.py", "/r", "x"⟩ : FileRec)
        ∈ bucketGet (bucketsOf (Dir.node [⟨"main.py", some ("x")⟩] []) "/r") "Python" ∧
    (FileRec.mk ("main.py") ("/r") ("x")).filename ≠ script_basename := by
  refine ⟨by decide, ?_⟩
  exact c8_self_exclusion.1 (Dir.node [⟨"main.py", some ("x")⟩] []) "/r" "Python"
    (FileRec.mk ("main.py") ("/r") ("x")) (by decide)

/-- C4: The ordered language list of every run is sorted by descending
total character count (adjacent-pairwise, hence globally, every later
language's volume is ≤ every earlier one's), and the sort is stable over
the bucket-insertion (discovery) order: for every volume value, the
sub-sequence of languages having that volume is exactly the one of the
discovery-ordered key list; moreover the list is a permutation of the
bucket keys. -/
theorem c4_sorted_desc_by_volume_and_stable (t : Dir) (p : String) :
    ((sortedLangsFor t p).Pairwise
      (fun a b => volumeOf (bucketsOf t p) b ≤ volumeOf (bucketsOf t p) a)) ∧
    (∀ v : Nat,
      (sortedLangsFor t p).filter (fun l => volumeOf (bucketsOf t p) l == v)
        = ((bucketsOf t p).map Prod.fst).filter
            (fun l => volumeOf (bucketsOf t p) l == v)) ∧
    ((sortedLangsFor t p).Perm ((bucketsOf t p).map Prod.fst)) := by
  refine ⟨?_, fun v => ?_, ?_⟩
  · rw [sortedLangsFor, sortedLangsOf]
    exact sortDesc_pairwise _ _
  · rw [sortedLangsFor, sortedLangsOf]
    exact sortDesc_filter _ v _
  · rw [sortedLangsFor, sortedLangsOf]
    exact sortDesc_perm _ _

/-- C10: Every record in any bucket of any run has a file extension
that is a key of the extension registry; `".md"` is not a key, so no
`.md` file is ever classified or bucketed — in particular the
`<project_name>.codebase.md` artifact of a previous run is never
re-ingested. -/
theorem c10_bucket_records_have_recognized_extension :
    lookupStr ext_to_lang (".md") = none ∧
    (∀ (t : Dir) (p l : String) (r : FileRec),
       r ∈ bucketGet (bucketsOf t p) l →
         (lookupStr ext_to_lang (extOf r.filename)).isSome) ∧
    (∀ (t : Dir) (p l : String) (r : FileRec),
       r ∈ bucketGet (bucketsOf t p) l → extOf r.filename ≠ ".md") ∧
    (∀ pn : String, classify (pn ++ ".codebase.md") = none) := by
  have hmd : lookupStr ext_to_lang (".md") = none := by decide
  have h2 : ∀ (t : Dir) (p l : String) (r : FileRec),
      r ∈ bucketGet (bucketsOf t p) l →
        (lookupStr ext_to_lang (extOf r.filename)).isSome := by
    intro t p l r hr
    rw [bucketsOf_bucketGet] at hr
    exact (eligibleDir_mem t p (List.mem_filter.mp hr).1).1
  refine ⟨hmd, h2, fun t p l r hr hext => ?_, classify_output_artifact⟩
  have hs := h2 t p l r hr
  rw [hext, hmd] at hs
  exact Bool.false_ne_true hs

/-- Witness for C10's record-level conjuncts at a concrete tree. -/
theorem c10_witness :
    ((⟨"main.py", "/r", "x"⟩ : FileRec)
        ∈ bucketGet (bucketsOf (Dir.node [⟨"main.py", some ("x")⟩] []) "/r") "Python") ∧
    (lookupStr ext_to_lang (extOf (FileRec.mk ("main.py") ("/r") ("x")).filename)).isSome ∧
    extOf (FileRec.mk ("main.py") ("/r") ("x")).filename ≠ ".md" := by
  refine ⟨by decide, ?_, ?_⟩
  · exact c10_bucket_records_have_recognized_extension.2.1
      (Dir.node [⟨"main.py", some ("x")⟩] []) "/r" "Python"
      (FileRec.mk ("main.py") ("/r") ("x")) (by decide)
  · exact c10_bucket_records_have_recognized_extension.2.2.1
      (Dir.node [⟨"main.py", some ("x")⟩] []) "/r" "Python"
      (FileRec.mk ("main.py") ("/r") ("x")) (by decide)

/-! ### Rendering -/

theorem strCatMap_infix_of_mem {α : Type} {x : α} {xs : List α}
    (f : α → String) (h : x ∈ xs) :
    ∃ pre post : String, strCatMap f xs = pre ++ f x ++ post := by
  induction xs with
  | nil => cases h
  | cons y ys ih =>
      rcases List.mem_cons.mp h with hx | hx
      · subst hx
        refine ⟨"", strCatMap f ys, ?_⟩
        apply String.ext
        simp [strCatMap, String.data_append]
      · obtain ⟨pre, post, hp⟩ := ih hx
        refine ⟨f y ++ pre, post, ?_⟩
        rw [strCatMap, hp, String.append_assoc, String.append_assoc,
          String.append_assoc]

/-- C5: For every language of the run's ordered list, the output
document contains — contiguously, hence in bucket (discovery) order — the
concatenation, over the language's bucket, of: the file name, the
containing directory path, the record's content verbatim inside a fenced
block tagged with the lower-cased label, and an 80-dash separator line. -/
theorem c5_per_file_rendering (pn p : String) (t : Dir) (lang : String)
    (h : lang ∈ sortedLangsFor t p) :
    ∃ pre post : String,
      generate_codebase_markdown pn p t
        = pre
          ++ strCatMap (fun r : FileRec =>
               r.filename ++ "\n" ++ r.dirpath ++ "\n"
                 ++ "```" ++ lowerStr lang ++ "\n" ++ r.content ++ "\n```\n\n"
                 ++ String.mk (List.replicate 80 '-') ++ "\n\n")
               (bucketGet (bucketsOf t p) lang)
          ++ post := by
  obtain ⟨pre1, post1, hsec⟩ :=
    strCatMap_infix_of_mem (renderSection (bucketsOf t p)) h
  refine ⟨renderHeader pn ++ pre1 ++ create_ascii_box lang 40 true,
    "\n\n" ++ post1, ?_⟩
  have hg : generate_codebase_markdown pn p t
      = renderHeader pn
        ++ strCatMap (renderSection (bucketsOf t p)) (sortedLangsFor t p) := rfl
  rw [hg, hsec, renderSection]
  apply String.ext
  simp only [String.data_append, List.append_assoc]
  rfl

/-- Witness for C5 at a concrete one-file tree. -/
theorem c5_witness :
    ("Python" ∈ sortedLangsFor (Dir.node [⟨"main.py", some ("print(1)")⟩] []) "/r") ∧
    ∃ pre post : String,
      generate_codebase_markdown ("proj") ("/r")
          (Dir.node [⟨"main.py", some ("print(1)")⟩] [])
        = pre
          ++ strCatMap (fun r : FileRec =>
               r.filename ++ "\n" ++ r.dirpath ++ "\n"
                 ++ "```" ++ lowerStr ("Python") ++ "\n" ++ r.content ++ "\n```\n\n"
                 ++ String.mk (List.replicate 80 '-') ++ "\n\n")
               (bucketGet
                 (bucketsOf (Dir.node [⟨"main.py", some ("print(1)")⟩] []) "/r")
                 "Python")
          ++ post := by
  refine ⟨by decide, ?_⟩
  exact c5_per_file_rendering ("proj") ("/r")
    (Dir.node [⟨"main.py", some ("print(1)")⟩] []) "Python" (by decide)

/-! ### The ASCII box -/

theorem charRep_length (c : Char) (n : Int) : (charRep c n).length = n.toNat := by
  rw [charRep]
  show (List.replicate n.toNat c).length = n.toNat
  exact List.length_replicate n.toNat c

/-- C9 counterexample:  The claim quantifies over every text whose
upper-cased form fits in the width, but a text that itself contains a
newline (here `"\n"`, of upper-cased length 1 ≤ 40 − 2) makes the returned
string contain four newline characters, so it is not three
newline-terminated lines. -/
theorem c9_counterexample :
    (((upperStr ("\n")).length : Int) + 2 ≤ 40) ∧
    ¬ ∃ l1 l2 l3 : String,
        create_ascii_box ("\n") 40 false = l1 ++ "\n" ++ l2 ++ "\n" ++ l3 ++ "\n" ∧
        ('\n') ∉ l1.data ∧ ('\n') ∉ l2.data ∧ ('\n') ∉ l3.data := by
  refine ⟨by decide, ?_⟩
  rintro ⟨l1, l2, l3, heq, h1, h2, h3⟩
  have hc : (create_ascii_box ("\n") 40 false).data.count '\n' = 4 := by decide
  rw [heq] at hc
  simp only [String.data_append, List.count_append] at hc
  rw [List.count_eq_zero.mpr h1, List.count_eq_zero.mpr h2,
    List.count_eq_zero.mpr h3] at hc
  have hn : (("\n") : String).data.count '\n' = 1 := by decide
  rw [hn] at hc
  omega

/-- C9 amended:  For every text whose upper-cased form contains no
newline and has length at most `width − 2`, `create_ascii_box` returns
exactly three newline-terminated lines, each exactly `width` characters
long before its newline, with the upper-cased text centered in the middle
line (left padding equal to or one less than right padding). -/
theorem c9_box_three_centered_lines (text : String) (width : Int) (dl : Bool)
    (h1 : ('\n') ∉ (upperStr text).data)
    (h2 : ((upperStr text).length : Int) + 2 ≤ width) :
    ∃ l1 l2 l3 : String,
      create_ascii_box text width dl = l1 ++ "\n" ++ l2 ++ "\n" ++ l3 ++ "\n" ∧
      ('\n') ∉ l1.data ∧ ('\n') ∉ l2.data ∧ ('\n') ∉ l3.data ∧
      (l1.length : Int) = width ∧ (l2.length : Int) = width ∧
      (l3.length : Int) = width ∧
      ∃ lp rp : Nat,
        l2 = String.singleton (if dl then '║' else '│') ++ charRep ' ' (lp : Int)
          ++ upperStr text ++ charRep ' ' (rp : Int)
          ++ String.singleton (if dl then '║' else '│') ∧
        (rp = lp ∨ rp = lp + 1) := by
  have h0 : (0 : Int) ≤ width - ((upperStr text).length : Int) - 2 := by omega
  set m := (width - ((upperStr text).length : Int) - 2).toNat with hmdef
  have hm : width - ((upperStr text).length : Int) - 2 = (m : Int) := by omega
  have hfd : Int.fdiv (width - ((upperStr text).length : Int) - 2) 2
      = ((m / 2 : Nat) : Int) := by
    rw [Int.fdiv_eq_ediv _ (by norm_num)]
    omega
  have hrp : width - ((upperStr text).length : Int) - 2 - ((m / 2 : Nat) : Int)
      = ((m - m / 2 : Nat) : Int) := by omega
  have hbox : create_ascii_box text width dl
      = (String.singleton (if dl then '╔' else '┌')
            ++ charRep (if dl then '═' else '─') (width - 2)
            ++ String.singleton (if dl then '╗' else '┐'))
        ++ "\n"
        ++ (String.singleton (if dl then '║' else '│')
            ++ charRep ' ' ((m / 2 : Nat) : Int) ++ upperStr text
            ++ charRep ' ' ((m - m / 2 : Nat) : Int)
            ++ String.singleton (if dl then '║' else '│'))
        ++ "\n"
        ++ (String.singleton (if dl then '╚' else '└')
            ++ charRep (if dl then '═' else '─') (width - 2)
            ++ String.singleton (if dl then '╝' else '┘'))
        ++ "\n" := by
    simp only [create_ascii_box]
    rw [hfd, hrp]
    apply String.ext
    simp [String.data_append, List.append_assoc]
  have hvt : (if dl then '║' else '│') ≠ '\n' := by cases dl <;> decide
  have htc : (if dl then '╔' else '┌') ≠ '\n' := by cases dl <;> decide
  have htr : (if dl then '╗' else '┐') ≠ '\n' := by cases dl <;> decide
  have hbc : (if dl then '╚' else '└') ≠ '\n' := by cases dl <;> decide
  have hbr : (if dl then '╝' else '┘') ≠ '\n' := by cases dl <;> decide
  have hhz : (if dl then '═' else '─') ≠ '\n' := by cases dl <;> decide
  refine ⟨_, _, _, hbox, ?_, ?_, ?_, ?_, ?_, ?_, ⟨m / 2, m - m / 2, rfl, by omega⟩⟩
  · intro hmem
    simp only [String.data_append, String.data_singleton, charRep,
      List.mem_append, List.mem_cons, List.not_mem_nil, or_false,
      List.mem_replicate] at hmem
    rcases hmem with (h | ⟨_, h⟩) | h <;>
      first
        | exact htc h.symm
        | exact hhz h.symm
        | exact htr h.symm
  · intro hmem
    simp only [String.data_append, String.data_singleton, charRep,
      List.mem_append, List.mem_cons, List.not_mem_nil, or_false,
      List.mem_replicate] at hmem
    rcases hmem with (((h | ⟨_, h⟩) | h) | ⟨_, h⟩) | h
    · exact hvt h.symm
    · exact absurd h.symm (by decide)
    · exact h1 h
    · exact absurd h.symm (by decide)
    · exact hvt h.symm
  · intro hmem
    simp only [String.data_append, String.data_singleton, charRep,
      List.mem_append, List.mem_cons, List.not_mem_nil, or_false,
      List.mem_replicate] at hmem
    rcases hmem with (h | ⟨_, h⟩) | h <;>
      first
        | exact hbc h.symm
        | exact hhz h.symm
        | exact hbr h.symm
  · simp only [String.length_append, String.length_singleton, charRep_length]
    omega
  · simp only [String.length_append, String.length_singleton, charRep_length]
    omega
  · simp only [String.length_append, String.length_singleton, charRep_length]
    omega

/-- Witness for C9 at a concrete text and width. -/
theorem c9_witness :
    (('\n') ∉ (upperStr ("hi")).data) ∧
    (((upperStr ("hi")).length : Int) + 2 ≤ 40) ∧
    ∃ l1 l2 l3 : String,
      create_ascii_box ("hi") 40 false = l1 ++ "\n" ++ l2 ++ "\n" ++ l3 ++ "\n" ∧
      ('\n') ∉ l1.data ∧ ('\n') ∉ l2.data ∧ ('\n') ∉ l3.data ∧
      (l1.length : Int) = 40 ∧ (l2.length : Int) = 40 ∧
      (l3.length : Int) = 40 ∧
      ∃ lp rp : Nat,
        l2 = String.singleton (if false then '║' else '│') ++ charRep ' ' (lp : Int)
          ++ upperStr ("hi") ++ charRep ' ' (rp : Int)
          ++ String.singleton (if false then '║' else '│') ∧
        (rp = lp ∨ rp = lp + 1) := by
  refine ⟨by decide, by decide, ?_⟩
  exact c9_box_three_centered_lines ("hi") 40 false (by decide) (by decide)

end SearchCopy
